import Mathlib

/-!
Shallow embedding of the `graphtries` repository (a g-trie based subgraph
census tool) and proofs about its specification claims.

The Rust sources embedded here are:
* `src/symmetry.rs`   — `Condition`, `Conditions` and their respect predicates;
* `src/census.rs`     — the `Candidates` buffer and the recursive matcher
  `match_child_conditionally` together with its helpers;
* `src/isomorphism.rs`— the canonical relabeling vertex selection and the
  symmetry-breaking condition synthesis;
* `src/gtrie.rs`      — trie insertion with its depth assertion;
* `src/node.rs`       — the `GtrieNode` record;
* `src/io.rs`         — the numeric edge-list loader;
* `src/bitgraph.rs`   — the packed adjacency matrix.

Machine integers (`usize`, `u32`) are modeled as `Nat`; all indexing in the
embedded code paths stays within bounds, so `Nat` coincides with the machine
behaviour.  `FixedBitSet` values are modeled as `Finset Nat` (membership
`contains` is `∈`, out-of-range `contains` is `false` in Rust and `∉` here).
Vectors are Lean lists; `Vec` indexing `v[i]` is modeled with `List.getD i 0`
at call sites where the source indexes in bounds.
-/

namespace Graphtries

/-- Embeds `symmetry.rs::Condition`: a pair of vertex positions `u < v`
(`Condition::new` asserts `u < v`). -/
structure Condition where
  u : Nat
  v : Nat
deriving DecidableEq, Repr

/-- Embeds `Condition::max`. -/
def Condition.max (c : Condition) : Nat := c.v

/-- Embeds `Condition::min`. -/
def Condition.min (c : Condition) : Nat := c.u

/-- Embeds `Condition::is_respected(d1, d2, u, v)`: if the depth pair equals
the condition's pair the vertex indices must be increasing, otherwise the
condition does not apply and is vacuously respected. -/
def Condition.isRespected (c : Condition) (d1 d2 u v : Nat) : Bool :=
  if d1 = c.u ∧ d2 = c.v then decide (u < v) else true

/-- Embeds `Conditions::respects_any(d1, d2, u, v)`: true when ANY condition
in the list is respected.  (The `assert!(d1 <= d2)` of the source holds at
every call site embedded here, where `d1 < d2`.) -/
def respectsAny (cs : List Condition) (d1 d2 u v : Nat) : Bool :=
  cs.any (fun c => c.isRespected d1 d2 u v)

/-- Embeds `Conditions::respects_all(d1, d2, u, v)`: true when ALL conditions
in the list are respected.  This function is dead code in `symmetry.rs`
(marked `#[allow(dead_code)]`); the live census path calls `respects_any`. -/
def respectsAll (cs : List Condition) (d1 d2 u v : Nat) : Bool :=
  cs.all (fun c => c.isRespected d1 d2 u v)

/-- Embeds `census.rs::used_respects_conditions`: for every pair of positions
`i < j < used.len()` the prefix must pass `respects_any`. The double loop
`for i in 0..len { for j in i+1..len { ... } }` is rendered with
`List.range` / `List.range'`. -/
def usedRespectsConditions (used : List Nat) : Option (List Condition) → Bool
  | none => true
  | some cs =>
    (List.range used.length).all fun i =>
      (List.range' (i + 1) (used.length - (i + 1))).all fun j =>
        respectsAny cs i j (used.getD i 0) (used.getD j 0)

/-- Follows the spec's words (§4.5 step 1, the claim under scrutiny): for each
pair `(i, j)` with `i < j < used.len()`, every APPLICABLE `Condition(i, j)`
(one whose position pair is exactly `(i, j)`) must satisfy
`used[i] < used[j]`. -/
def allApplicableRespectedSpec (used : List Nat) (cs : List Condition) : Prop :=
  ∀ i j, i < j → j < used.length →
    ∀ c ∈ cs, c.u = i → c.v = j → used.getD i 0 < used.getD j 0

/-- Embeds `census.rs::minimal_possible_index`: the smallest host label the
next position may take, folded from the conditions fixing position
`used.len()`. -/
def minimalPossibleIndex (used : List Nat) : Option (List Condition) → Nat
  | none => 0
  | some cs =>
    ((cs.filter (fun c => c.max = used.length)).foldl
      (fun acc c => Nat.max acc (used.getD c.min 0 + 1)) 0)

/-- Embeds `bitgraph.rs::Bitgraph`: the packed `n × n` adjacency bit-matrix
(bit `u * n + v` set iff there is a directed edge `u → v`).  The cached
neighbor views of the source are derived functions here. -/
structure Bitgraph where
  n : Nat
  adj : List Bool
deriving DecidableEq, Repr

/-- Embeds `Bitgraph::is_connected(u, v)` (`FixedBitSet::contains` is `false`
out of range, as is `List.getD _ false`). -/
def Bitgraph.isConnected (g : Bitgraph) (u v : Nat) : Bool :=
  g.adj.getD (u * g.n + v) false

/-- Modelled from the spec: `Bitgraph::fast_neighbors(u)` is called by
`census.rs` but is absent from the `bitgraph.rs` in the sources; the spec
(§3, §4.5) describes the neighbor view as "bitset of vertices v with u→v or
v→u (no self-loop)", scanned in ascending vertex order. -/
def Bitgraph.fastNeighbors (g : Bitgraph) (u : Nat) : List Nat :=
  (List.range g.n).filter (fun w => w ≠ u ∧ (g.isConnected u w ∨ g.isConnected w u))

/-- Embeds `Bitgraph::n_undir_neighbors(u)` (the cached undirected degree
`n_unei[u]`, which counts the vertices `v ≠ u` adjacent to `u` in either
direction). -/
def Bitgraph.nUndirNeighbors (g : Bitgraph) (u : Nat) : Nat :=
  (g.fastNeighbors u).length

/-- Embeds `census.rs::Candidates`: a fixed-capacity stack `candidates` of
which the first `n` slots are live, plus a membership bitset `blacklist`
tracking every index inserted since the last `clear`. -/
structure Candidates where
  candidates : List Nat
  blacklist : Finset Nat
  n : Nat
  size : Nat
deriving DecidableEq

/-- Embeds `Candidates::new(size)`: `vec![0; size]`, empty bitset, `n = 0`. -/
def Candidates.new (size : Nat) : Candidates :=
  ⟨List.replicate size 0, ∅, 0, size⟩

/-- Embeds `Candidates::insert(idx)`: ignored when `idx` is in the membership
bitset, otherwise written at slot `n` (always in bounds under the buffer
invariant proved below) and recorded in the bitset. -/
def Candidates.insert (c : Candidates) (idx : Nat) : Candidates :=
  if idx ∈ c.blacklist then c
  else ⟨c.candidates.set c.n idx, Insert.insert idx c.blacklist, c.n + 1, c.size⟩

/-- Embeds `Candidates::fill()`: insert every vertex `0 .. size-1`. -/
def Candidates.fill (c : Candidates) : Candidates :=
  (List.range c.size).foldl Candidates.insert c

/-- Embeds `Candidates::pop()`: `None` when `n = 0`, otherwise the top slot;
note that the source decrements `n` but leaves the membership bitset alone. -/
def Candidates.pop (c : Candidates) : Option Nat × Candidates :=
  if c.n = 0 then (none, c)
  else (some (c.candidates.getD (c.n - 1) 0), ⟨c.candidates, c.blacklist, c.n - 1, c.size⟩)

/-- Embeds `Candidates::clear()`: reset `n` and the membership bitset. -/
def Candidates.clear (c : Candidates) : Candidates :=
  ⟨c.candidates, ∅, 0, c.size⟩

/-- The live contents of the buffer, bottom of the stack first: the first `n`
slots of the backing vector. -/
def Candidates.toStack (c : Candidates) : List Nat :=
  c.candidates.take c.n

/-- The buffer invariant maintained by the census: full backing vector, a
duplicate-free live region whose members are recorded in the membership
bitset, and a bitset confined to the capacity. -/
def Candidates.Inv (c : Candidates) : Prop :=
  c.candidates.length = c.size ∧ c.n ≤ c.size ∧ c.toStack.Nodup ∧
    (∀ v ∈ c.toStack, v ∈ c.blacklist) ∧ (∀ v ∈ c.blacklist, v < c.size)

instance (c : Candidates) : Decidable c.Inv := by
  unfold Candidates.Inv; infer_instance

/-- Embeds `census.rs::build_candidates_conditionally`: bail out when the
prefix violates the symmetry conditions; otherwise fill the whole vertex
range when `used` is empty, and otherwise insert, for EVERY vertex of `used`,
its fast neighbors that clear `label_min` and the blacklist. -/
def buildCandidatesConditionally (g : Bitgraph) (used : List Nat)
    (cand : Candidates) (blacklist : Finset Nat)
    (conditions : Option (List Condition)) : Candidates :=
  if ¬ usedRespectsConditions used conditions then cand
  else
    let labelMin := minimalPossibleIndex used conditions
    if used.length = 0 then cand.fill
    else
      used.foldl
        (fun cand v =>
          ((g.fastNeighbors v).filter
            (fun m => labelMin ≤ m ∧ m ∉ blacklist)).foldl Candidates.insert cand)
        cand

/-- Embeds `node.rs::GtrieNode`.  The row bitsets `edge_in` / `edge_out` and
the derived counters are carried verbatim; the serde / display code is not
modeled. -/
inductive GtrieNode : Type where
  | mk (nNodes depth : Nat) (isGraph : Bool) (edgeIn edgeOut : Finset Nat)
      (totalIn totalOut totalEdges frequency : Nat) (connections : List Nat)
      (conditions : Option (List Condition)) (children : List GtrieNode)

/-- Field accessor for the child list. -/
def GtrieNode.children : GtrieNode → List GtrieNode
  | .mk _ _ _ _ _ _ _ _ _ _ _ children => children

/-- Embeds `GtrieNode::is_graph()`. -/
def GtrieNode.isGraph : GtrieNode → Bool
  | .mk _ _ isGraph _ _ _ _ _ _ _ _ _ => isGraph

/-- Field accessor for the frequency counter. -/
def GtrieNode.frequency : GtrieNode → Nat
  | .mk _ _ _ _ _ _ _ _ frequency _ _ _ => frequency

/-- Embeds `GtrieNode::in_contains(v)`. -/
def GtrieNode.inContains (node : GtrieNode) (v : Nat) : Bool :=
  match node with
  | .mk _ _ _ edgeIn _ _ _ _ _ _ _ _ => decide (v ∈ edgeIn)

/-- Embeds `GtrieNode::out_contains(v)`. -/
def GtrieNode.outContains (node : GtrieNode) (v : Nat) : Bool :=
  match node with
  | .mk _ _ _ _ edgeOut _ _ _ _ _ _ _ => decide (v ∈ edgeOut)

/-- Embeds `GtrieNode::conditions()`. -/
def GtrieNode.conditions : GtrieNode → Option (List Condition)
  | .mk _ _ _ _ _ _ _ _ _ _ conditions _ => conditions

/-- Embeds the `connections` field (read through `active_nodes()`). -/
def GtrieNode.connections : GtrieNode → List Nat
  | .mk _ _ _ _ _ _ _ _ _ connections _ _ => connections

/-- Embeds `GtrieNode::increment_frequency()`. -/
def GtrieNode.incrementFrequency : GtrieNode → GtrieNode
  | .mk a b c d e f g h frequency i j k => .mk a b c d e f g h (frequency + 1) i j k

/-- Replaces the child list, as the matcher's `iter_children_mut` loop does
by updating each child in place. -/
def GtrieNode.withChildren : GtrieNode → List GtrieNode → GtrieNode
  | .mk a b c d e f g h i j k _, children => .mk a b c d e f g h i j k children

/-- Embeds `census.rs::matches_structure(node, graph, used, v)`: the
`used.iter().enumerate().all(..)` loop, rendered as an index-carrying
recursion over `used`. -/
def matchesStructureFrom (node : GtrieNode) (g : Bitgraph) (v : Nat) :
    Nat → List Nat → Bool
  | _, [] => true
  | i, u :: rest =>
    (decide (u ≠ v) && (node.outContains i == g.isConnected u v)
      && (node.inContains i == g.isConnected v u))
      && matchesStructureFrom node g v (i + 1) rest

/-- Embeds `census.rs::matches_structure` (the enumeration starts at 0). -/
def matchesStructure (node : GtrieNode) (g : Bitgraph) (used : List Nat)
    (v : Nat) : Bool :=
  matchesStructureFrom node g v 0 used

/-- Embeds `census.rs::build_vertices`: pop candidates until the buffer is
empty, keeping those that match the node's rows (the final `clear` discards
the buffer, which the caller never reuses before refilling). -/
def buildVertices (node : GtrieNode) (used : List Nat) (g : Bitgraph)
    (c : Candidates) : List Nat :=
  if h : c.n = 0 then []
  else
    let v := c.candidates.getD (c.n - 1) 0
    let c' : Candidates := ⟨c.candidates, c.blacklist, c.n - 1, c.size⟩
    if matchesStructure node g used v then v :: buildVertices node used g c'
    else buildVertices node used g c'
termination_by c.n
decreasing_by all_goals exact Nat.sub_lt (Nat.pos_of_ne_zero h) Nat.one_pos

/-- Embeds `census.rs::matching_vertices_conditionally`.  The shared
`Candidates` buffer is passed to the matcher empty (it starts empty and
`build_vertices` drains and clears it on every call), so it is modeled as a
fresh buffer of host capacity here. -/
def matchingVerticesConditionally (node : GtrieNode) (used : List Nat)
    (g : Bitgraph) (blacklist : Finset Nat) : List Nat :=
  buildVertices node used g
    (buildCandidatesConditionally g used (Candidates.new g.n) blacklist node.conditions)

/-- The running state of the matcher: the node being rebuilt, the `used`
stack, the `blacklist` bitset and — modelled from the spec (§4.5 step 4 and
§3 `Trie.total_matches`, absent from the sources, whose `Gtrie` lacks the
field) — the number of matches recorded so far. -/
abbrev MatchState := GtrieNode × List Nat × Finset Nat × Nat

/-- The running state of the matcher's child loop: children rebuilt so far,
`used`, `blacklist`, and the spec-modelled match counter. -/
abbrev ChildState := List GtrieNode × List Nat × Finset Nat × Nat

/-- Embeds the body of the `for c in node.iter_children_mut()` loop of
`census.rs::match_child_conditionally`: run the recursive matcher `F` on one
child, collect the updated child, and thread `used`/`blacklist` and the match
count onward. -/
def childStepF (F : GtrieNode → List Nat → Finset Nat → MatchState)
    (st : ChildState) (c : GtrieNode) : ChildState :=
  let r := F c st.2.1 st.2.2.1
  (st.1 ++ [r.1], r.2.1, r.2.2.1, st.2.2.2 + r.2.2.2)

/-- Embeds the body of the `for v in vertices` loop of
`census.rs::match_child_conditionally`: push `v` and blacklist it; at a
terminal, count the match and bump the frequency, otherwise run the matcher
`F` over every child in order; finally pop `v` and clear its blacklist bit
(`used.pop()` / `blacklist.set(v, false)` in source order). -/
def matchStepF (F : GtrieNode → List Nat → Finset Nat → MatchState)
    (st : MatchState) (v : Nat) : MatchState :=
  let node := st.1
  let used := st.2.1 ++ [v]
  let bl := Insert.insert v st.2.2.1
  if node.isGraph then
    (node.incrementFrequency, used.dropLast, bl.erase v, st.2.2.2 + 1)
  else
    let inner := node.children.foldl (childStepF F)
      (([] : List GtrieNode), used, bl, st.2.2.2)
    (node.withChildren inner.1, inner.2.1.dropLast, inner.2.2.1.erase v,
      inner.2.2.2)

/-- Embeds `census.rs::match_child_conditionally`.  The recursion of the
source descends through child nodes of an in-place updated tree whose shape
never changes, so the Lean rendering recurses on an explicit fuel that the
entry point `matchChildConditionally` instantiates with the tree height (a
bound on the recursion depth; the fuel-0 branch is unreachable from the entry
point). -/
def matchChildGo (g : Bitgraph) : Nat → GtrieNode → List Nat → Finset Nat → MatchState
  | 0, node, used, blacklist => (node, used, blacklist, 0)
  | fuel + 1, node, used, blacklist =>
    (matchingVerticesConditionally node used g blacklist).foldl
      (matchStepF (fun c u b => matchChildGo g fuel c u b))
      (node, used, blacklist, 0)

/-- The height of a trie node (1 plus the maximal child height); bounds the
recursion depth of `match_child_conditionally`. -/
def GtrieNode.height : GtrieNode → Nat
  | .mk _ _ _ _ _ _ _ _ _ _ _ children => 1 + heightL children
where
  /-- Maximal height of a list of nodes. -/
  heightL : List GtrieNode → Nat
    | [] => 0
    | c :: cs => Nat.max c.height (heightL cs)

/-- The entry point matching `census.rs::match_child_conditionally`: run the
fueled recursion with the tree height, which the recursion never exhausts. -/
def matchChildConditionally (g : Bitgraph) (node : GtrieNode)
    (used : List Nat) (blacklist : Finset Nat) : MatchState :=
  matchChildGo g node.height node used blacklist

/-- Sum of `frequency` over the terminal (`is_graph`) nodes of a subtree. -/
def sumFreq : GtrieNode → Nat
  | .mk _ _ isGraph _ _ _ _ _ frequency _ _ children =>
    (if isGraph then frequency else 0) + sumFreqL children
where
  /-- Sum of terminal frequencies over a list of subtrees. -/
  sumFreqL : List GtrieNode → Nat
    | [] => 0
    | c :: cs => sumFreq c + sumFreqL cs

/-- Embeds `gtrie.rs::Gtrie` (the `total_matches` running counter of the
spec is produced by the census function below rather than stored). -/
structure Gtrie where
  root : GtrieNode
  maxDepth : Nat

/-- Modelled from the spec: `Trie.census` (§4.3) kicks off the matcher from
each child of the root with an empty assignment and accumulates
`total_matches`; the census driver present in `gtrie.rs` is a superseded
debugging variant and `main.rs` calls the matcher of `census.rs` through
methods absent from the sources.  The reusable `used`/`blacklist` state is
threaded through the children in order. -/
def Gtrie.census (t : Gtrie) (g : Bitgraph) : Gtrie × Nat :=
  let r := t.root.children.foldl (childStepF (matchChildConditionally g))
    (([] : List GtrieNode), ([] : List Nat), (∅ : Finset Nat), 0)
  (⟨t.root.withChildren r.1, t.maxDepth⟩, r.2.2.2)

/-- Embeds `GtrieNode::new(depth)`: empty child list and rows, zero counters,
`n_nodes = depth`. -/
def GtrieNode.new (depth : Nat) : GtrieNode :=
  .mk depth depth false ∅ ∅ 0 0 0 0 [] none []

/-- Embeds `GtrieNode::update_adjacency(graph, k)`: scan `u in 0..k`, record
connections with vertex `k-1` of the pattern and update the row bitsets and
degree counters. -/
def GtrieNode.updateAdjacency (node : GtrieNode) (g : Bitgraph) (k : Nat) :
    GtrieNode :=
  (List.range k).foldl
    (fun node u =>
      match node with
      | .mk a b c edgeIn edgeOut totalIn totalOut totalEdges f connections j l =>
        let fwd := g.isConnected u (k - 1)
        let bwd := g.isConnected (k - 1) u
        let connections := if fwd || bwd then connections ++ [u] else connections
        let edgeOut := if fwd then Insert.insert u edgeOut else edgeOut
        let totalOut := if fwd then totalOut + 1 else totalOut
        let edgeIn := if bwd then Insert.insert u edgeIn else edgeIn
        let totalIn := if bwd then totalIn + 1 else totalIn
        let totalEdges := totalEdges + (if fwd then 1 else 0) + (if bwd then 1 else 0)
        .mk a b c edgeIn edgeOut totalIn totalOut totalEdges f connections j l)
    node

/-- Embeds `GtrieNode::set_graph(b)`. -/
def GtrieNode.setGraph : GtrieNode → Bool → GtrieNode
  | .mk a b _ d e f g h i j k l, isGraph => .mk a b isGraph d e f g h i j k l

/-- Embeds `GtrieNode::insert_child(child)`. -/
def GtrieNode.insertChild (node : GtrieNode) (child : GtrieNode) : GtrieNode :=
  node.withChildren (node.children ++ [child])

/-- Embeds `Gtrie::depth_eq(node, graph, k)`: rows `0..=k` of the node agree
with row `k` of the pattern in both directions. -/
def depthEq (node : GtrieNode) (g : Bitgraph) (k : Nat) : Bool :=
  (List.range (k + 1)).all fun idx =>
    !(node.outContains idx != g.isConnected idx k)
      && !(node.inContains idx != g.isConnected k idx)

/-- Embeds `Gtrie::insert_recursively(graph, node, k)`.  The source recursion
stops when `k` reaches `graph.n_nodes()`; since `k` only grows toward that
bound, the recursion is rendered with fuel `graph.n - k + 1`, supplied by
`Gtrie.insert` below — one unit per visited depth `k = 0, …, graph.n`, so
the `k = graph.n` base case (the source's `set_graph(true)` terminal
marking) is always reached with fuel to spare. -/
def insertRecursively (g : Bitgraph) : Nat → GtrieNode → Nat → GtrieNode
  | 0, node, _ => node
  | fuel + 1, node, k =>
    if k = g.n then node.setGraph true
    else
      match node.children.findIdx? (fun c => depthEq c g k) with
      | some i =>
        node.withChildren
          (node.children.set i
            (insertRecursively g fuel (node.children.getD i (GtrieNode.new 0)) (k + 1)))
      | none =>
        let child := (GtrieNode.new (k + 1)).updateAdjacency g (k + 1)
        node.insertChild (insertRecursively g fuel child (k + 1))

/-- Embeds `Gtrie::insert(graph)`: the `assert!(graph.n_nodes() <= max_depth)`
of the source is rendered as returning `none` (an assertion failure aborts),
and a passing assertion proceeds with the recursive insertion from the root
at depth 0. -/
def Gtrie.insert (t : Gtrie) (g : Bitgraph) : Option Gtrie :=
  if g.n ≤ t.maxDepth then
    some ⟨insertRecursively g (g.n + 1) t.root 0, t.maxDepth⟩
  else none

/-- Embeds `isomorphism.rs::smaller_last_degree(last_degree, u, min_u)`. -/
def smallerLastDegree (lastDegree : List Nat) (u minU : Nat) : Bool :=
  decide (lastDegree.getD u 0 < lastDegree.getD minU 0)

/-- Embeds `isomorphism.rs::smaller_global_degree` with the source's own
parameter order `(last_degree, global_degree, u, min_u)`. -/
def smallerGlobalDegree (lastDegree globalDegree : List Nat) (u minU : Nat) : Bool :=
  decide (lastDegree.getD u 0 = lastDegree.getD minU 0)
    && decide (globalDegree.getD u 0 < globalDegree.getD minU 0)

/-- Embeds `isomorphism.rs::select_minimum_vertex`: scan `u in 0..size`,
skipping used vertices and articulation points; the running minimum `min_u`
starts at `-1` (modeled as `none`) and is replaced on a strictly smaller
`degree`, or on equal `degree` when `smaller_last_degree` or
`smaller_global_degree` fires — the latter called, exactly as in the source,
with `global_degree` in first position and `last_degree` in second. -/
def selectMinimumVertex (degree lastDegree globalDegree : List Nat)
    (used ap : List Bool) (size : Nat) : Option Nat :=
  (List.range size).foldl
    (fun minU u =>
      if used.getD u false || ap.getD u false then minU
      else
        match minU with
        | none => some u
        | some m =>
          if degree.getD u 0 < degree.getD m 0 then some u
          else if degree.getD u 0 = degree.getD m 0
              && (smallerLastDegree lastDegree u m
                || smallerGlobalDegree globalDegree lastDegree u m) then some u
          else some m)
    none

/-- Strict lexicographic order on degree triples. -/
def lexTripleLt (a b : Nat × Nat × Nat) : Bool :=
  decide (a.1 < b.1)
    || (decide (a.1 = b.1)
      && (decide (a.2.1 < b.2.1)
        || (decide (a.2.1 = b.2.1) && decide (a.2.2 < b.2.2))))

/-- Follows the spec's words (§4.2 stage 1): among the eligible vertices the
selected one is the lexicographic minimum of the triple
`(current_degree, last_degree, total_degree)`, earliest index on full ties. -/
def lexMinVertexSpec (degree lastDegree globalDegree : List Nat)
    (used ap : List Bool) (size : Nat) : Option Nat :=
  (List.range size).foldl
    (fun minU u =>
      if used.getD u false || ap.getD u false then minU
      else
        match minU with
        | none => some u
        | some m =>
          if lexTripleLt (degree.getD u 0, lastDegree.getD u 0, globalDegree.getD u 0)
              (degree.getD m 0, lastDegree.getD m 0, globalDegree.getD m 0)
          then some u else some m)
    none

/-- Embeds the retain step of `isomorphism.rs::symmetry_breaking_conditions`:
`group.retain(|g| g[idx] < g[jdx])`. -/
def retainLt (group : List (List Nat)) (i j : Nat) : List (List Nat) :=
  group.filter fun g => decide (g.getD i 0 < g.getD j 0)

/-- Embeds the ascending position scan
`orbits.iter().enumerate().filter(|(_, v)| *v == o)` of the condition
synthesis. -/
def positionsOf (orbits : List Nat) (o : Nat) : List Nat :=
  (List.range orbits.length).filter fun i => orbits.getD i 0 = o

/-- Embeds the innermost `jdx` loop body of the condition synthesis: once the
group is a singleton the loop breaks (rendered as a guard, which is
equivalent because a singleton group is never retained again); on `idx < jdx`
a condition is pushed and the group retained. -/
def condInner2 (i : Nat) (st : List (List Nat) × List Condition) (j : Nat) :
    List (List Nat) × List Condition :=
  if st.1.length = 1 then st
  else if i < j then (retainLt st.1 i j, st.2 ++ [⟨i, j⟩]) else st

/-- Embeds the `idx` loop of the condition synthesis (breaking on a singleton
group, then running the `jdx` loop over the same position list). -/
def condInner1 (ps : List Nat) (st : List (List Nat) × List Condition)
    (i : Nat) : List (List Nat) × List Condition :=
  if st.1.length = 1 then st else ps.foldl (condInner2 i) st

/-- Embeds the orbit loop of the condition synthesis. -/
def condOrbit (orbits : List Nat) (st : List (List Nat) × List Condition)
    (o : Nat) : List (List Nat) × List Condition :=
  if st.1.length = 1 then st
  else (positionsOf orbits o).foldl (condInner1 (positionsOf orbits o)) st

/-- Embeds `itertools`' `unique()` over the orbit vector: the distinct values
in order of first appearance. -/
def uniqueFirst (l : List Nat) : List Nat :=
  l.foldl (fun acc x => if x ∈ acc then acc else acc ++ [x]) []

/-- The loop nest of `isomorphism.rs::symmetry_breaking_conditions`, returning
the retained group together with the emitted conditions. -/
def symBreakCore (auts : List (List Nat)) (orbits : List Nat) :
    List (List Nat) × List Condition :=
  (uniqueFirst orbits).foldl (condOrbit orbits) (auts, [])

/-- Embeds `isomorphism.rs::symmetry_breaking_conditions`.  The automorphism
oracle (`AutoGroups` of the external `graph_canon` crate) is out of scope for
the sources; modelled from the spec (§4.2): the oracle supplies "the set of
automorphism permutations as lists of length k", so `aut.automorphisms()` is
that list and `aut.size()` its length. -/
def symmetryBreakingConditions (auts : List (List Nat)) (orbits : List Nat) :
    Option (List Condition) :=
  if auts.length = 0 then none
  else some (symBreakCore auts orbits).2

/-- Embeds the error message of `io.rs::load_numeric_graph_from_buffer`. -/
def zeroIndexErrorMsg : String :=
  "ERROR: Found a node index: 0; Please use 1-indexed node indices."

/-- Embeds `io.rs::load_numeric_graph_from_buffer` on well-formed input: each
line is a pair of parsed numerals; a zero endpoint aborts with the 1-indexing
error, a self-loop is dropped when loops are excluded, and every kept edge is
shifted to 0-indexed endpoints. -/
def loadNumericGraphFromBuffer (lines : List (Nat × Nat))
    (includeLoops : Bool) : Except String (List (Nat × Nat)) :=
  match lines with
  | [] => .ok []
  | (u, v) :: rest =>
    if u = 0 ∨ v = 0 then .error zeroIndexErrorMsg
    else if ¬ includeLoops ∧ u = v then loadNumericGraphFromBuffer rest includeLoops
    else
      match loadNumericGraphFromBuffer rest includeLoops with
      | .error e => .error e
      | .ok es => .ok ((u - 1, v - 1) :: es)

/-- Follows the spec's words (§4.5 step 2): the pivot is the vertex in `used`
referenced by the node's active connections whose undirected host degree is
smallest, ties broken by first encountered. -/
def pivotSpec (g : Bitgraph) (node : GtrieNode) (used : List Nat) : Option Nat :=
  (node.connections.map (fun p => used.getD p 0)).foldl
    (fun best u =>
      match best with
      | none => some u
      | some b => if g.nUndirNeighbors u < g.nUndirNeighbors b then some u else some b)
    none

/-- Follows the spec's words (§4.5 step 2): the candidate set generated for a
non-empty prefix is the pivot's fast neighbors at or above `label_min` and
outside the blacklist. -/
def pivotCandidatesSpec (g : Bitgraph) (node : GtrieNode) (used : List Nat)
    (blacklist : Finset Nat) (labelMin : Nat) : List Nat :=
  match pivotSpec g node used with
  | none => []
  | some p => (g.fastNeighbors p).filter fun w => labelMin ≤ w ∧ w ∉ blacklist

/-! ### Generic fold helpers -/

/-- A predicate preserved by every step of a fold is preserved by the fold. -/
theorem foldl_hold {α β : Type} (P : α → Prop) (f : α → β → α)
    (h : ∀ st x, P st → P (f st x)) :
    ∀ (l : List β) (st : α), P st → P (l.foldl f st) := by
  intro l
  induction l with
  | nil => intro st hst; exact hst
  | cons x xs ih => intro st hst; exact ih (f st x) (h st x hst)

/-- A fold whose step fixes every state satisfying `Q` fixes such states. -/
theorem foldl_frozen {α β : Type} (Q : α → Prop) (f : α → β → α)
    (h : ∀ st x, Q st → f st x = st) :
    ∀ (l : List β) (st : α), Q st → l.foldl f st = st := by
  intro l
  induction l with
  | nil => intro st _; rfl
  | cons x xs ih => intro st hst; rw [List.foldl_cons, h st x hst]; exact ih st hst

/-- A predicate preserved by every step taken on a member of the list is
preserved by the fold over that list. -/
theorem foldl_hold_mem {α β : Type} (P : α → Prop) (f : α → β → α) :
    ∀ (l : List β), (∀ st x, x ∈ l → P st → P (f st x)) →
      ∀ (st : α), P st → P (l.foldl f st) := by
  intro l
  induction l with
  | nil => intro _ st hst; exact hst
  | cons x xs ih =>
    intro h st hst
    exact ih (fun st y hy => h st y (List.mem_cons_of_mem x hy)) (f st x)
      (h st x (List.mem_cons_self x xs) hst)

/-! ### C1: the census condition check -/

/-- C1 (code bug evidence): on `used = [20, 10]` with conditions
`{0<1, 0<2}`, the source's `used_respects_conditions` ACCEPTS the prefix —
`respects_any` lets the inapplicable condition `0<2` vouch for the pair
`(0, 1)` — although the applicable condition `0<1` fails
(`used[0] = 20 ≥ 10 = used[1]`), so the spec's authoritative "all applicable
conditions" rule (and the source's own dead `respects_all`) rejects it. -/
theorem used_respects_conditions_any_not_all :
    usedRespectsConditions [20, 10] (some [⟨0, 1⟩, ⟨0, 2⟩]) = true ∧
    respectsAll [⟨0, 1⟩, ⟨0, 2⟩] 0 1 20 10 = false ∧
    ¬ allApplicableRespectedSpec [20, 10] [⟨0, 1⟩, ⟨0, 2⟩] := by
  refine ⟨by decide, by decide, fun h => ?_⟩
  have h20 := h 0 1 (by omega) (by simp) ⟨0, 1⟩ (by simp) rfl rfl
  simp [List.getD] at h20

/-! ### C4: canonical relabeling vertex selection -/

/-- C4 (code bug evidence): with equal current degrees `[5, 5]`, equal last
degrees `[7, 7]` and global degrees `[9, 3]`, the source's
`select_minimum_vertex` keeps vertex 0 — its call to `smaller_global_degree`
passes `global_degree` and `last_degree` in swapped positions, so the
documented global-degree tiebreak never fires — while the documented
lexicographic rule on `(current, last, global)` selects vertex 1. -/
theorem select_minimum_vertex_global_tiebreak_dead :
    selectMinimumVertex [5, 5] [7, 7] [9, 3] [false, false] [false, false] 2
      = some 0 ∧
    lexMinVertexSpec [5, 5] [7, 7] [9, 3] [false, false] [false, false] 2
      = some 1 := by
  constructor <;> rfl

/-! ### C7: symmetry-breaking condition synthesis -/

/-- All members of the retained group satisfy all emitted conditions; a step
of the innermost synthesis loop preserves this. -/
theorem condInner2_resp (i j : Nat) (st : List (List Nat) × List Condition)
    (h : ∀ gp ∈ st.1, ∀ c ∈ st.2, gp.getD c.u 0 < gp.getD c.v 0) :
    ∀ gp ∈ (condInner2 i st j).1, ∀ c ∈ (condInner2 i st j).2,
      gp.getD c.u 0 < gp.getD c.v 0 := by
  unfold condInner2
  split
  · exact h
  · split
    · intro gp hgp c hc
      rw [retainLt, List.mem_filter] at hgp
      rcases List.mem_append.mp hc with hc | hc
      · exact h gp hgp.1 c hc
      · have hcv : c = ⟨i, j⟩ := by simpa using hc
        subst hcv
        simpa using hgp.2
    · exact h

/-- The group-respects-conditions invariant is preserved by the `idx` loop. -/
theorem condInner1_resp (ps : List Nat) (i : Nat)
    (st : List (List Nat) × List Condition)
    (h : ∀ gp ∈ st.1, ∀ c ∈ st.2, gp.getD c.u 0 < gp.getD c.v 0) :
    ∀ gp ∈ (condInner1 ps st i).1, ∀ c ∈ (condInner1 ps st i).2,
      gp.getD c.u 0 < gp.getD c.v 0 := by
  unfold condInner1
  split
  · exact h
  · exact foldl_hold _ _ (fun st j h => condInner2_resp i j st h) ps st h

/-- The group-respects-conditions invariant is preserved by the orbit loop. -/
theorem condOrbit_resp (orbits : List Nat) (o : Nat)
    (st : List (List Nat) × List Condition)
    (h : ∀ gp ∈ st.1, ∀ c ∈ st.2, gp.getD c.u 0 < gp.getD c.v 0) :
    ∀ gp ∈ (condOrbit orbits st o).1, ∀ c ∈ (condOrbit orbits st o).2,
      gp.getD c.u 0 < gp.getD c.v 0 := by
  unfold condOrbit
  split
  · exact h
  · exact foldl_hold _ _ (fun st i h => condInner1_resp _ i st h) _ st h

/-- A singleton group freezes the orbit loop. -/
theorem condOrbit_frozen (orbits : List Nat)
    (st : List (List Nat) × List Condition) (o : Nat)
    (h : st.1.length = 1) : condOrbit orbits st o = st := by
  unfold condOrbit
  exact if_pos h

/-- C7 (amended): every permutation remaining in the retained group satisfies
`g[i] < g[j]` for every emitted `Condition(i, j)`; once the group is reduced
to a single permutation (in particular the identity alone) no further
conditions are emitted; and on an input without non-trivial automorphisms —
the oracle's list being just the identity — the synthesis returns `Some` of
an EMPTY condition list (`None` is returned exactly when the oracle's list is
empty, not in this case, contrary to the claim's parenthetical). -/
theorem symmetry_breaking_conditions_invariants :
    (∀ auts orbits, ∀ gp ∈ (symBreakCore auts orbits).1,
      ∀ c ∈ (symBreakCore auts orbits).2, gp.getD c.u 0 < gp.getD c.v 0) ∧
    (∀ (orbits : List Nat) (st : List (List Nat) × List Condition)
      (os : List Nat), st.1.length = 1 → os.foldl (condOrbit orbits) st = st) ∧
    (∀ (gp : List Nat) orbits,
      symmetryBreakingConditions [gp] orbits = some []) ∧
    (∀ orbits, symmetryBreakingConditions [] orbits = none) := by
  have frozen : ∀ (orbits : List Nat) (st : List (List Nat) × List Condition)
      (os : List Nat), st.1.length = 1 → os.foldl (condOrbit orbits) st = st :=
    fun orbits st os h =>
      foldl_frozen (fun st => st.1.length = 1) _
        (fun st o h => condOrbit_frozen orbits st o h) os st h
  refine ⟨?_, frozen, ?_, fun orbits => rfl⟩
  · intro auts orbits
    exact foldl_hold _ _ (fun st o h => condOrbit_resp orbits o st h)
      (uniqueFirst orbits) (auts, []) (by simp)
  · intro gp orbits
    unfold symmetryBreakingConditions
    rw [if_neg (by simp)]
    unfold symBreakCore
    rw [frozen orbits ([gp], []) (uniqueFirst orbits) rfl]

/-- C7 (counterexample to the claim as stated): a one-vertex input has no
non-trivial automorphisms (the oracle reports only the identity `[0]`), yet
the synthesis returns `some []`, not `None`. -/
theorem symmetry_breaking_conditions_some_empty :
    symmetryBreakingConditions [[0]] [0] ≠ none ∧
    symmetryBreakingConditions [[0]] [0] = some [] := by
  constructor <;> decide

/-- C7 (witness): the invariants applied to the two-vertex swap group: the
synthesis retains only the identity `[0, 1]`, emits exactly `0<1`, and the
identity satisfies it. -/
theorem symmetry_breaking_conditions_invariants_witness :
    [0, 1] ∈ (symBreakCore [[0, 1], [1, 0]] [0, 0]).1 ∧
    (⟨0, 1⟩ : Condition) ∈ (symBreakCore [[0, 1], [1, 0]] [0, 0]).2 ∧
    ([0, 1] : List Nat).getD 0 0 < ([0, 1] : List Nat).getD 1 0 :=
  ⟨by decide, by decide,
    symmetry_breaking_conditions_invariants.1 [[0, 1], [1, 0]] [0, 0]
      [0, 1] (by decide) ⟨0, 1⟩ (by decide)⟩

/-! ### C9: the numeric edge-list loader -/

/-- The loader can only fail with the 1-indexing message. -/
theorem loadNumericGraph_error_msg :
    ∀ (lines : List (Nat × Nat)) (il : Bool) (e : String),
      loadNumericGraphFromBuffer lines il = .error e → e = zeroIndexErrorMsg := by
  intro lines il
  induction lines with
  | nil => intro e h; simp [loadNumericGraphFromBuffer] at h
  | cons p rest ih =>
    intro e h
    obtain ⟨u, v⟩ := p
    rw [loadNumericGraphFromBuffer] at h
    split at h
    · cases h; rfl
    · split at h
      · exact ih e h
      · split at h
        · next heq => cases h; exact ih e heq
        · cases h

/-- The loader fails with the 1-indexing message exactly when some line has
a zero endpoint. -/
theorem loadNumericGraph_error_iff :
    ∀ (lines : List (Nat × Nat)) (il : Bool),
      loadNumericGraphFromBuffer lines il = .error zeroIndexErrorMsg ↔
        ∃ p ∈ lines, p.1 = 0 ∨ p.2 = 0 := by
  intro lines il
  induction lines with
  | nil => simp [loadNumericGraphFromBuffer]
  | cons p rest ih =>
    obtain ⟨u, v⟩ := p
    have hiff : (∃ q ∈ (u, v) :: rest, q.1 = 0 ∨ q.2 = 0) ↔
        ((u = 0 ∨ v = 0) ∨ ∃ q ∈ rest, q.1 = 0 ∨ q.2 = 0) := by
      constructor
      · rintro ⟨q, hq, hz⟩
        rcases List.mem_cons.mp hq with rfl | hq'
        · exact Or.inl hz
        · exact Or.inr ⟨q, hq', hz⟩
      · rintro (hz | ⟨q, hq, hz⟩)
        · exact ⟨(u, v), List.mem_cons_self _ _, hz⟩
        · exact ⟨q, List.mem_cons_of_mem _ hq, hz⟩
    rw [loadNumericGraphFromBuffer, hiff]
    by_cases hz : u = 0 ∨ v = 0
    · rw [if_pos hz]
      exact ⟨fun _ => Or.inl hz, fun _ => rfl⟩
    · rw [if_neg hz]
      split
      · rw [ih]
        exact ⟨fun h => Or.inr h, fun h => h.resolve_left hz⟩
      · rcases hrec : loadNumericGraphFromBuffer rest il with e | es
        · have he := loadNumericGraph_error_msg rest il e hrec
          subst he
          simp only [hrec]
          constructor
          · exact fun _ => Or.inr (ih.mp hrec)
          · exact fun _ => by simp
        · simp only [hrec]
          constructor
          · intro h; cases h
          · intro h
            have := ih.mpr (h.resolve_left hz)
            rw [this] at hrec
            cases hrec

/-- With loops excluded and no zero endpoint, the loader drops exactly the
self-loop lines and shifts the rest. -/
theorem loadNumericGraph_drops_loops :
    ∀ (lines : List (Nat × Nat)), (∀ p ∈ lines, p.1 ≠ 0 ∧ p.2 ≠ 0) →
      loadNumericGraphFromBuffer lines false =
        .ok ((lines.filter (fun p => p.1 ≠ p.2)).map
          (fun p => (p.1 - 1, p.2 - 1))) := by
  intro lines
  induction lines with
  | nil => intro _; rfl
  | cons p rest ih =>
    intro hall
    obtain ⟨u, v⟩ := p
    have hu := hall (u, v) (List.mem_cons_self _ _)
    have hrest := ih (fun q hq => hall q (List.mem_cons_of_mem _ hq))
    rw [loadNumericGraphFromBuffer, if_neg (not_or.mpr ⟨hu.1, hu.2⟩)]
    by_cases huv : u = v
    · rw [if_pos ⟨by simp, huv⟩, hrest]
      simp [huv]
    · rw [if_neg (fun hc => huv hc.2)]
      rw [hrest]
      simp [huv]

/-- C9: on well-formed numeral-pair lines the loader errors out exactly when
some line carries a vertex id 0 (and then with the message mentioning
1-indexing), and with `include_loops = false` every self-loop line is
silently dropped while all remaining edges are kept, shifted to 0-indexed
endpoints. -/
theorem load_numeric_graph_from_buffer_spec :
    ∀ (lines : List (Nat × Nat)) (il : Bool),
      (loadNumericGraphFromBuffer lines il = .error zeroIndexErrorMsg ↔
        ∃ p ∈ lines, p.1 = 0 ∨ p.2 = 0) ∧
      (∀ e, loadNumericGraphFromBuffer lines il = .error e →
        e = zeroIndexErrorMsg) ∧
      ((∀ p ∈ lines, p.1 ≠ 0 ∧ p.2 ≠ 0) →
        loadNumericGraphFromBuffer lines false =
          .ok ((lines.filter (fun p => p.1 ≠ p.2)).map
            (fun p => (p.1 - 1, p.2 - 1)))) :=
  fun lines il =>
    ⟨loadNumericGraph_error_iff lines il,
     loadNumericGraph_error_msg lines il,
     loadNumericGraph_drops_loops lines⟩

/-- C9 (witness): a file with lines `(1,2)`, `(3,3)`, `(2,1)` has no zero id,
so the loader succeeds, drops the self-loop, and shifts the edges. -/
theorem load_numeric_graph_from_buffer_spec_witness :
    loadNumericGraphFromBuffer [(1, 2), (3, 3), (2, 1)] false =
      .ok [(0, 1), (1, 0)] := by
  have h := load_numeric_graph_from_buffer_spec [(1, 2), (3, 3), (2, 1)] false
  rw [h.2.2 (by decide)]
  rfl

/-! ### C5: the structural filter -/

/-- Index-wise characterization of the `matches_structure` loop started at
offset `i`. -/
theorem matchesStructureFrom_iff (node : GtrieNode) (g : Bitgraph) (v : Nat) :
    ∀ (l : List Nat) (i : Nat),
      matchesStructureFrom node g v i l = true ↔
        ∀ k (hk : k < l.length),
          l.get ⟨k, hk⟩ ≠ v ∧
          node.outContains (i + k) = g.isConnected (l.get ⟨k, hk⟩) v ∧
          node.inContains (i + k) = g.isConnected v (l.get ⟨k, hk⟩) := by
  intro l
  induction l with
  | nil => intro i; simp [matchesStructureFrom]
  | cons u rest ih =>
    intro i
    rw [matchesStructureFrom]
    simp only [Bool.and_eq_true, decide_eq_true_eq, beq_iff_eq]
    constructor
    · rintro ⟨⟨⟨hne, hout⟩, hin⟩, htail⟩ k hk
      match k with
      | 0 => exact ⟨hne, hout, hin⟩
      | k + 1 =>
        have htk := (ih (i + 1)).mp htail k (Nat.lt_of_succ_lt_succ hk)
        have harr : i + 1 + k = i + (k + 1) := by omega
        rw [harr] at htk
        exact htk
    · intro h
      refine ⟨⟨⟨(h 0 (Nat.succ_pos _)).1, (h 0 (Nat.succ_pos _)).2.1⟩,
        (h 0 (Nat.succ_pos _)).2.2⟩, (ih (i + 1)).mpr ?_⟩
      intro k hk
      have hk1 := h (k + 1) (Nat.succ_lt_succ hk)
      have harr : i + (k + 1) = i + 1 + k := by omega
      rw [harr] at hk1
      exact hk1

/-- An accepted candidate is assigned to no current position. -/
theorem matchesStructure_not_mem (node : GtrieNode) (g : Bitgraph)
    (used : List Nat) (v : Nat) (h : matchesStructure node g used v = true) :
    v ∉ used := by
  intro hmem
  obtain ⟨⟨k, hk⟩, hget⟩ := List.mem_iff_get.mp hmem
  exact ((matchesStructureFrom_iff node g v used 0).mp h k hk).1 hget

/-- C5: a candidate `v` passes the structural filter iff at every position
`i < used.len()` the assigned vertex differs from `v` and the node's out/in
row bits coincide with the host edges toward and from `v`; consequently every
accepted candidate is outside `used`. -/
theorem matches_structure_spec (node : GtrieNode) (g : Bitgraph)
    (used : List Nat) (v : Nat) :
    (matchesStructure node g used v = true ↔
      ∀ i (hi : i < used.length),
        used.get ⟨i, hi⟩ ≠ v ∧
        node.outContains i = g.isConnected (used.get ⟨i, hi⟩) v ∧
        node.inContains i = g.isConnected v (used.get ⟨i, hi⟩)) ∧
    (matchesStructure node g used v = true → v ∉ used) := by
  constructor
  · simpa using matchesStructureFrom_iff node g v used 0
  · exact matchesStructure_not_mem node g used v

/-- C5 (witness): the single-edge pattern row `out = {0}`, `in = {}` accepts
candidate 1 against host edge `0 → 1` with `used = [0]`, and 1 is not in
`used`. -/
theorem matches_structure_spec_witness :
    matchesStructure (.mk 2 2 true ∅ {0} 0 1 1 0 [0] none [])
      ⟨2, [false, true, false, false]⟩ [0] 1 = true ∧
    (1 : Nat) ∉ [(0 : Nat)] :=
  ⟨by decide,
    (matches_structure_spec (.mk 2 2 true ∅ {0} 0 1 1 0 [0] none [])
      ⟨2, [false, true, false, false]⟩ [0] 1).2 (by decide)⟩

/-! ### C8: the insertion assertion -/

/-- C8: `Gtrie::insert` hits its assertion exactly on patterns larger than
the trie's `max_depth`; on patterns that fit, the assertion passes and the
recursive insertion from the root proceeds. -/
theorem gtrie_insert_assertion (t : Gtrie) (g : Bitgraph) :
    (t.insert g = none ↔ t.maxDepth < g.n) ∧
    (g.n ≤ t.maxDepth →
      t.insert g = some ⟨insertRecursively g (g.n + 1) t.root 0, t.maxDepth⟩) := by
  unfold Gtrie.insert
  by_cases h : g.n ≤ t.maxDepth
  · rw [if_pos h]
    constructor
    · constructor
      · intro hc; exact Option.noConfusion hc
      · intro hlt; exact absurd hlt (Nat.not_lt.mpr h)
    · intro _; rfl
  · rw [if_neg h]
    constructor
    · constructor
      · intro _; exact Nat.not_le.mp h
      · intro _; rfl
    · intro hle; exact absurd hle h

/-- C8 (witness): a 2-vertex pattern fits a depth-3 trie and is inserted —
and the inserted path's depth-2 node is marked terminal (`set_graph(true)`
was reached) — while a 4-vertex pattern overflows the trie and trips the
assertion. -/
theorem gtrie_insert_assertion_witness :
    (Gtrie.mk (GtrieNode.new 0) 3).insert ⟨2, [false, true, false, false]⟩ =
      some ⟨insertRecursively ⟨2, [false, true, false, false]⟩ 3
        (GtrieNode.new 0) 0, 3⟩ ∧
    (((insertRecursively ⟨2, [false, true, false, false]⟩ 3
        (GtrieNode.new 0) 0).children.getD 0 (GtrieNode.new 0)).children.getD 0
        (GtrieNode.new 0)).isGraph = true ∧
    (Gtrie.mk (GtrieNode.new 0) 3).insert ⟨4, []⟩ = none :=
  ⟨(gtrie_insert_assertion (Gtrie.mk (GtrieNode.new 0) 3)
      ⟨2, [false, true, false, false]⟩).2 (by decide),
   by decide,
   (gtrie_insert_assertion (Gtrie.mk (GtrieNode.new 0) 3) ⟨4, []⟩).1.mpr
      (by decide)⟩

/-! ### C6: the deduplicating candidate buffer -/

/-- Writing at slot `n` and extending the live region by one appends the
written value to the live region. -/
theorem take_set_succ : ∀ (l : List Nat) (n v : Nat), n < l.length →
    (l.set n v).take (n + 1) = l.take n ++ [v] := by
  intro l
  induction l with
  | nil => intro n v h; simp at h
  | cons a as ih =>
    intro n v h
    match n with
    | 0 => rfl
    | n + 1 =>
      have := ih n v (Nat.lt_of_succ_lt_succ h)
      simp only [List.set_cons_succ, List.take_succ_cons, this, List.cons_append]

/-- Under the invariant the live region has exactly `n` elements. -/
theorem Candidates.stack_length (c : Candidates) (h : c.Inv) :
    c.toStack.length = c.n := by
  rw [Candidates.toStack, List.length_take, h.1, Nat.min_eq_left h.2.1]

/-- An index already recorded in the membership bitset is ignored. -/
theorem Candidates.insert_of_mem {c : Candidates} {v : Nat}
    (h : v ∈ c.blacklist) : c.insert v = c := by
  rw [Candidates.insert, if_pos h]

/-- Inserting an unrecorded index below capacity appends it to the live
region, records it, and preserves the invariant. -/
theorem Candidates.insert_of_not_mem {c : Candidates} {v : Nat}
    (hInv : c.Inv) (hv : v < c.size) (h : v ∉ c.blacklist) :
    (c.insert v).toStack = c.toStack ++ [v] ∧
    (c.insert v).blacklist = Insert.insert v c.blacklist ∧
    (c.insert v).size = c.size ∧ (c.insert v).Inv := by
  obtain ⟨hlen, hle, hnd, hmem, hbound⟩ := hInv
  have hstack : v ∉ c.toStack := fun hc => h (hmem v hc)
  have hn : c.n < c.size := by
    rcases Nat.lt_or_ge c.n c.size with hlt | hge
    · exact hlt
    · exfalso
      have hn' : c.n = c.size := Nat.le_antisymm hle hge
      have hcard : c.toStack.toFinset.card = c.size := by
        rw [List.toFinset_card_of_nodup hnd,
          Candidates.stack_length c ⟨hlen, hle, hnd, hmem, hbound⟩, hn']
      have hsub1 : c.toStack.toFinset ⊆ c.blacklist := fun w hw =>
        hmem w (List.mem_toFinset.mp hw)
      have hsub2 : c.blacklist ⊆ Finset.range c.size := fun w hw =>
        Finset.mem_range.mpr (hbound w hw)
      have hbl : c.toStack.toFinset = c.blacklist :=
        Finset.eq_of_subset_of_card_le hsub1
          (by
            calc c.blacklist.card ≤ (Finset.range c.size).card :=
                  Finset.card_le_card hsub2
              _ = c.size := Finset.card_range _
              _ = c.toStack.toFinset.card := hcard.symm)
      have hrange : c.blacklist = Finset.range c.size :=
        Finset.eq_of_subset_of_card_le hsub2
          (by rw [Finset.card_range, ← hcard, hbl])
      exact h (by rw [hrange]; exact Finset.mem_range.mpr hv)
  rw [Candidates.insert, if_neg h]
  have hts : (c.candidates.set c.n v).take (c.n + 1) = c.toStack ++ [v] :=
    take_set_succ c.candidates c.n v (by rw [hlen]; exact hn)
  refine ⟨hts, rfl, rfl, ?_⟩
  refine ⟨by rw [List.length_set]; exact hlen, hn, ?_, ?_, ?_⟩
  · show ((c.candidates.set c.n v).take (c.n + 1)).Nodup
    rw [hts]
    refine List.Nodup.append hnd (List.nodup_singleton v) ?_
    intro w hw hw'
    rw [List.mem_singleton] at hw'
    subst hw'
    exact hstack hw
  · intro w hw
    have hw' : w ∈ c.toStack ++ [v] := by
      rw [← hts]; exact hw
    rcases List.mem_append.mp hw' with hw'' | hw''
    · exact Finset.mem_insert_of_mem (hmem w hw'')
    · have : w = v := by simpa using hw''
      subst this
      exact Finset.mem_insert_self w _
  · intro w hw
    rcases Finset.mem_insert.mp hw with rfl | hw
    · exact hv
    · exact hbound w hw

/-- An unrecorded index changes the buffer (its live count grows). -/
theorem Candidates.insert_ne_of_not_mem {c : Candidates} {v : Nat}
    (h : v ∉ c.blacklist) : c.insert v ≠ c := by
  intro he
  have := congrArg Candidates.n he
  rw [Candidates.insert, if_neg h] at this
  simp at this

/-- Folding `insert` over a list of in-capacity indices: the invariant is
preserved, the capacity and membership bitset evolve as expected, and the
live region gains exactly the listed indices that were unrecorded. -/
theorem foldl_insert_spec :
    ∀ (l : List Nat) (c : Candidates), c.Inv → (∀ x ∈ l, x < c.size) →
      (l.foldl Candidates.insert c).Inv ∧
      (l.foldl Candidates.insert c).size = c.size ∧
      (l.foldl Candidates.insert c).blacklist = c.blacklist ∪ l.toFinset ∧
      (∀ w, w ∈ (l.foldl Candidates.insert c).toStack ↔
        w ∈ c.toStack ∨ (w ∈ l ∧ w ∉ c.blacklist)) := by
  intro l
  induction l with
  | nil =>
    intro c hInv _
    exact ⟨hInv, rfl, by simp, by simp⟩
  | cons x xs ih =>
    intro c hInv hbound
    rw [List.foldl_cons]
    by_cases hx : x ∈ c.blacklist
    · rw [Candidates.insert_of_mem hx]
      obtain ⟨h1, h2, h3, h4⟩ := ih c hInv (fun y hy => hbound y (List.mem_cons_of_mem _ hy))
      refine ⟨h1, h2, ?_, ?_⟩
      · rw [h3]
        ext w
        simp only [Finset.mem_union, List.mem_toFinset, List.mem_cons]
        constructor
        · rintro (hw | hw)
          · exact Or.inl hw
          · exact Or.inr (Or.inr hw)
        · rintro (hw | rfl | hw)
          · exact Or.inl hw
          · exact Or.inl hx
          · exact Or.inr hw
      · intro w
        rw [h4 w]
        constructor
        · rintro (hw | ⟨hw1, hw2⟩)
          · exact Or.inl hw
          · exact Or.inr ⟨List.mem_cons_of_mem _ hw1, hw2⟩
        · rintro (hw | ⟨hw1, hw2⟩)
          · exact Or.inl hw
          · rcases List.mem_cons.mp hw1 with rfl | hw1
            · exact absurd hx hw2
            · exact Or.inr ⟨hw1, hw2⟩
    · obtain ⟨hts, hbl, hsz, hInv'⟩ :=
        Candidates.insert_of_not_mem hInv (hbound x (List.mem_cons_self _ _)) hx
      obtain ⟨h1, h2, h3, h4⟩ := ih (c.insert x) hInv'
        (fun y hy => hsz ▸ hbound y (List.mem_cons_of_mem _ hy))
      refine ⟨h1, by rw [h2, hsz], ?_, ?_⟩
      · rw [h3, hbl]
        ext w
        simp only [Finset.mem_union, Finset.mem_insert, List.mem_toFinset,
          List.mem_cons]
        tauto
      · intro w
        rw [h4 w, hts, hbl]
        simp only [List.mem_append, List.mem_singleton, Finset.mem_insert,
          List.mem_cons]
        by_cases hwx : w = x
        · subst hwx
          simp [hx]
        · simp only [hwx, false_or, or_false]
          tauto

/-- A fresh buffer satisfies the invariant. -/
theorem Candidates.new_inv (size : Nat) : (Candidates.new size).Inv := by
  refine ⟨by simp [Candidates.new], by simp [Candidates.new], ?_, ?_, ?_⟩
  · simp [Candidates.new, Candidates.toStack]
  · intro v hv; simp [Candidates.new, Candidates.toStack] at hv
  · intro v hv; simp [Candidates.new] at hv

/-- C6 (counterexample to the claim as stated): insert 0 into a fresh
capacity-2 buffer, pop it back out — 0 is no longer present in the buffer —
and insert 0 again: the insert is IGNORED (the pop left 0 in the membership
bitset), although the claim says an insert is ignored exactly when the value
is already present. -/
theorem candidates_reinsert_after_pop_ignored :
    ((((Candidates.new 2).insert 0).pop.2).insert 0 =
      ((Candidates.new 2).insert 0).pop.2) ∧
    0 ∉ (((Candidates.new 2).insert 0).pop.2).toStack := by
  constructor <;> decide

/-- C6 (amended): under the buffer invariant, for any in-capacity index `v`:
`insert v` is ignored exactly when `v` is in the membership bitset (which
records every index inserted since the last `clear`, popped or not — not
merely the currently present ones); an unrecorded insert appends `v` to the
live stack; `fill` adds exactly the unrecorded host vertices (so on a buffer
with no pops since the last clear it inserts every missing vertex); `pop`
returns `None` exactly when the buffer is empty and otherwise removes and
returns the most recently inserted remaining element; and all operations
preserve the invariant. -/
theorem candidates_buffer_spec (c : Candidates) (v : Nat) (hInv : c.Inv)
    (hv : v < c.size) :
    (c.insert v = c ↔ v ∈ c.blacklist) ∧
    (v ∉ c.blacklist →
      (c.insert v).toStack = c.toStack ++ [v] ∧ (c.insert v).Inv) ∧
    (c.fill.Inv ∧
      ∀ w, w ∈ c.fill.toStack ↔ w ∈ c.toStack ∨ (w < c.size ∧ w ∉ c.blacklist)) ∧
    (c.pop.1 = none ↔ c.toStack = []) ∧
    (∀ l x, c.toStack = l ++ [x] →
      c.pop.1 = some x ∧ c.pop.2.toStack = l ∧ c.pop.2.Inv) := by
  have hfill := foldl_insert_spec (List.range c.size) c hInv
    (fun x hx => List.mem_range.mp hx)
  refine ⟨?_, ?_, ?_, ?_, ?_⟩
  · constructor
    · intro he
      by_contra hnm
      exact Candidates.insert_ne_of_not_mem hnm he
    · exact Candidates.insert_of_mem
  · intro h
    obtain ⟨h1, _, _, h4⟩ := Candidates.insert_of_not_mem hInv hv h
    exact ⟨h1, h4⟩
  · refine ⟨hfill.1, ?_⟩
    intro w
    rw [Candidates.fill, hfill.2.2.2 w, List.mem_range]
  · constructor
    · intro hp
      have h0 : c.n = 0 := by
        by_contra h0
        rw [Candidates.pop, if_neg h0] at hp
        exact Option.noConfusion hp
      rw [Candidates.toStack, h0, List.take_zero]
    · intro hc
      have h0 : c.n = 0 :=
        (Candidates.stack_length c hInv).symm.trans (by rw [hc]; rfl)
      rw [Candidates.pop, if_pos h0]
  · intro l x hlx
    have hn : c.n = l.length + 1 := by
      have := Candidates.stack_length c hInv
      rw [hlx] at this
      simpa using this.symm
    have hnz : ¬ c.n = 0 := by omega
    have hlen : c.n ≤ c.candidates.length := by rw [hInv.1]; exact hInv.2.1
    have htk : c.candidates.take (c.n - 1) = l := by
      have h1 : c.candidates.take (c.n - 1) = (c.candidates.take c.n).take (c.n - 1) := by
        rw [List.take_take, Nat.min_eq_left (by omega)]
      rw [h1]
      have h2 : c.candidates.take c.n = l ++ [x] := hlx
      rw [h2, hn]
      simp only [Nat.add_sub_cancel]
      exact List.take_left l [x]
    have hgd : c.candidates.getD (c.n - 1) 0 = x := by
      have h1 : c.candidates.getD (c.n - 1) 0 =
          (c.candidates.take c.n).getD (c.n - 1) 0 := by
        rw [List.getD_eq_getElem c.candidates 0 (by omega),
          List.getD_eq_getElem (c.candidates.take c.n) 0
            (by rw [List.length_take]; omega)]
        rw [List.getElem_take]
      have h2 : c.candidates.take c.n = l ++ [x] := hlx
      rw [h1, h2, hn]
      simp only [Nat.add_sub_cancel]
      rw [List.getD_eq_getElem (l ++ [x]) 0 (by simp)]
      simp
    rw [Candidates.pop, if_neg hnz]
    refine ⟨by rw [hgd], htk, ?_⟩
    obtain ⟨h1, h2, h3, h4, h5⟩ := hInv
    refine ⟨h1, ?_, ?_, ?_, h5⟩
    · show c.n - 1 ≤ c.size
      omega
    · show (c.candidates.take (c.n - 1)).Nodup
      rw [htk]
      have : l.Nodup ∧ x ∉ l := by
        have hnd := h3
        rw [show c.toStack = l ++ [x] from hlx] at hnd
        rw [List.nodup_append] at hnd
        exact ⟨hnd.1, fun hx => hnd.2.2 hx (List.mem_singleton_self x)⟩
      exact this.1
    · intro w hw
      refine h4 w ?_
      show w ∈ c.toStack
      rw [show (⟨c.candidates, c.blacklist, c.n - 1, c.size⟩ : Candidates).toStack
        = l from htk] at hw
      rw [hlx]
      exact List.mem_append_left _ hw

/-- C6 (witness): the invariant and the append behaviour at the concrete
buffer obtained by inserting 0 into a fresh capacity-2 buffer, inserting the
unrecorded index 1. -/
theorem candidates_buffer_spec_witness :
    ((Candidates.new 2).insert 0).Inv ∧ 1 < ((Candidates.new 2).insert 0).size ∧
    (((Candidates.new 2).insert 0).insert 1).toStack =
      ((Candidates.new 2).insert 0).toStack ++ [1] :=
  ⟨by decide, by decide,
    ((candidates_buffer_spec ((Candidates.new 2).insert 0) 1 (by decide)
      (by decide)).2.1 (by decide)).1⟩

/-! ### C3: candidate generation -/

/-- Fast neighbors are host vertices. -/
theorem fastNeighbors_lt (g : Bitgraph) (u w : Nat)
    (h : w ∈ g.fastNeighbors u) : w < g.n := by
  rw [Bitgraph.fastNeighbors, List.mem_filter] at h
  exact List.mem_range.mp h.1

/-- Membership in the buffer after the candidate-generation fold over the
`used` stack: a vertex is live iff it was live before or is a filtered fast
neighbor of some used vertex (for a buffer whose membership bitset matches
its live region, as a freshly cleared buffer's does). -/
theorem build_fold_mem (g : Bitgraph) (labelMin : Nat) (bl : Finset Nat) :
    ∀ (us : List Nat) (c : Candidates), c.Inv → c.size = g.n →
      c.blacklist = c.toStack.toFinset →
      ∀ w, w ∈ (us.foldl
          (fun cand v => ((g.fastNeighbors v).filter
            (fun m => labelMin ≤ m ∧ m ∉ bl)).foldl Candidates.insert cand) c).toStack ↔
        w ∈ c.toStack ∨ ∃ u ∈ us,
          w ∈ (g.fastNeighbors u).filter (fun m => labelMin ≤ m ∧ m ∉ bl) := by
  intro us
  induction us with
  | nil =>
    intro c _ _ _ w
    simp
  | cons u0 rest ih =>
    intro c hInv hsz hcorr w
    rw [List.foldl_cons]
    obtain ⟨h1, h2, h3, h4⟩ := foldl_insert_spec
      ((g.fastNeighbors u0).filter (fun m => labelMin ≤ m ∧ m ∉ bl)) c hInv
      (fun x hx => by
        rw [hsz]
        exact fastNeighbors_lt g u0 x (List.mem_filter.mp hx).1)
    have hcorr' :
        (((g.fastNeighbors u0).filter (fun m => labelMin ≤ m ∧ m ∉ bl)).foldl
          Candidates.insert c).blacklist =
        (((g.fastNeighbors u0).filter (fun m => labelMin ≤ m ∧ m ∉ bl)).foldl
          Candidates.insert c).toStack.toFinset := by
      ext y
      rw [h3, List.mem_toFinset, h4 y, hcorr]
      simp only [Finset.mem_union, List.mem_toFinset]
      tauto
    rw [ih _ h1 (by rw [h2, hsz]) hcorr' w, h4 w]
    have hbl : w ∉ c.blacklist ↔ w ∉ c.toStack := by
      rw [hcorr, List.mem_toFinset]
    constructor
    · rintro ((hw | ⟨hw1, hw2⟩) | ⟨u, hu, hw⟩)
      · exact Or.inl hw
      · exact Or.inr ⟨u0, List.mem_cons_self _ _, hw1⟩
      · exact Or.inr ⟨u, List.mem_cons_of_mem _ hu, hw⟩
    · rintro (hw | ⟨u, hu, hw⟩)
      · exact Or.inl (Or.inl hw)
      · rcases List.mem_cons.mp hu with rfl | hu'
        · by_cases hws : w ∈ c.toStack
          · exact Or.inl (Or.inl hws)
          · exact Or.inl (Or.inr ⟨hw, hbl.mpr hws⟩)
        · exact Or.inr ⟨u, hu', hw⟩

/-- C3 (counterexample to the claim as stated): host `0 → 1`, `2 → 0`, prefix
`used = [2, 0]`, node whose active connections reference only position 0
(host vertex 2, the host's minimum-degree referenced vertex, hence the
spec's pivot).  The pivot's only neighbor is blacklisted, so the pivot rule
yields no candidates — but the code unions the fast neighbors of EVERY used
vertex and produces candidate 1 (a neighbor of vertex 0 only). -/
theorem build_candidates_not_pivot_based :
    1 ∈ (buildCandidatesConditionally
      ⟨3, [false, true, false, false, false, false, true, false, false]⟩
      [2, 0] (Candidates.new 3) {0, 2} none).toStack ∧
    1 ∉ pivotCandidatesSpec
      ⟨3, [false, true, false, false, false, false, true, false, false]⟩
      (.mk 2 2 false ∅ ∅ 0 0 0 0 [0] none []) [2, 0] {0, 2}
      (minimalPossibleIndex [2, 0] none) := by
  constructor <;> decide

/-- C3 (amended): when `used` is non-empty and survives the condition check,
the candidate set handed to the structural filter is exactly the union over
ALL vertices `u` of `used` of the host fast neighbors `w` of `u` with
`w ≥ label_min` and `w` outside the blacklist — no minimum-degree pivot is
selected. -/
theorem build_candidates_conditionally_spec (g : Bitgraph) (used : List Nat)
    (bl : Finset Nat) (conds : Option (List Condition))
    (hne : used ≠ []) (hresp : usedRespectsConditions used conds = true) :
    ∀ w, w ∈ (buildCandidatesConditionally g used (Candidates.new g.n) bl
        conds).toStack ↔
      ∃ u ∈ used, w ∈ g.fastNeighbors u ∧
        minimalPossibleIndex used conds ≤ w ∧ w ∉ bl := by
  intro w
  rw [buildCandidatesConditionally]
  rw [if_neg (by simp [hresp])]
  simp only []
  rw [if_neg (fun h => hne (List.length_eq_zero.mp h))]
  rw [build_fold_mem g (minimalPossibleIndex used conds) bl used
    (Candidates.new g.n) (Candidates.new_inv g.n) rfl (by
      show (∅ : Finset Nat) = ((Candidates.new g.n).toStack).toFinset
      simp [Candidates.new, Candidates.toStack]) w]
  constructor
  · rintro (hw | ⟨u, hu, hw⟩)
    · simp [Candidates.new, Candidates.toStack] at hw
    · rw [List.mem_filter, decide_eq_true_eq] at hw
      exact ⟨u, hu, hw.1, hw.2⟩
  · rintro ⟨u, hu, hw1, hw2, hw3⟩
    exact Or.inr ⟨u, hu, List.mem_filter.mpr ⟨hw1, by simp [hw2, hw3]⟩⟩

/-- C3 (witness): host path `0 → 1 → 2`, prefix `used = [1]` surviving the
empty conditions: the candidates are exactly the unblacklisted fast
neighbors of 1, so vertex 2 is generated. -/
theorem build_candidates_conditionally_spec_witness :
    2 ∈ (buildCandidatesConditionally
      ⟨3, [false, true, false, false, false, true, false, false, false]⟩
      [1] (Candidates.new 3) {1} none).toStack :=
  (build_candidates_conditionally_spec
    ⟨3, [false, true, false, false, false, true, false, false, false]⟩
    [1] {1} none (by decide) (by decide) 2).mpr
    ⟨1, by decide, by decide, by decide, by decide⟩

/-! ### C2 and C10: the recursive matcher -/

/-- Appending a processed child to the accumulator adds its terminal sum. -/
theorem sumFreqL_append (l : List GtrieNode) (x : GtrieNode) :
    sumFreq.sumFreqL (l ++ [x]) = sumFreq.sumFreqL l + sumFreq x := by
  induction l with
  | nil => simp [sumFreq.sumFreqL]
  | cons c cs ih =>
    rw [List.cons_append, sumFreq.sumFreqL, sumFreq.sumFreqL, ih]
    omega

/-- The terminal sum of a node in terms of its own terminal contribution and
its children. -/
theorem sumFreq_eq (node : GtrieNode) :
    sumFreq node = (if node.isGraph then node.frequency else 0) +
      sumFreq.sumFreqL node.children := by
  cases node
  rfl

/-- Replacing the child list replaces the children's contribution. -/
theorem sumFreq_withChildren (node : GtrieNode) (cs : List GtrieNode) :
    sumFreq (node.withChildren cs) =
      (if node.isGraph then node.frequency else 0) + sumFreq.sumFreqL cs := by
  cases node
  rfl

/-- Incrementing the frequency of a terminal node adds one to its terminal
sum. -/
theorem sumFreq_incrementFrequency (node : GtrieNode)
    (h : node.isGraph = true) :
    sumFreq node.incrementFrequency = sumFreq node + 1 := by
  cases node with
  | mk a b c d e f g0 h0 i j k l =>
    rw [GtrieNode.isGraph] at h
    subst h
    rw [GtrieNode.incrementFrequency, sumFreq, sumFreq]
    simp only [if_true]
    omega

/-- Folds whose step shifts a measure `m` by exactly the shift of a counter
`cn` preserve the relation between the two over the whole fold. -/
theorem foldl_delta {α β : Type} (f : α → β → α) (m cn : α → Nat)
    (h : ∀ st x, m (f st x) + cn st = m st + cn (f st x)) :
    ∀ (l : List β) (st : α), m (l.foldl f st) + cn st = m st + cn (l.foldl f st) := by
  intro l
  induction l with
  | nil => intro st; rfl
  | cons x xs ih =>
    intro st
    rw [List.foldl_cons]
    have h1 := h st x
    have h2 := ih (f st x)
    omega

/-- Variant of `foldl_delta` phrased for a fold started at a zero counter. -/
theorem foldl_delta_zero {α β : Type} (f : α → β → α) (m cn : α → Nat)
    (h : ∀ st x, m (f st x) + cn st = m st + cn (f st x))
    (l : List β) (st : α) (h0 : cn st = 0) :
    m (l.foldl f st) = m st + cn (l.foldl f st) := by
  have := foldl_delta f m cn h l st
  omega

/-- The child-processing fold of the matcher: the terminal sum collected in
the accumulator grows by exactly the number of matches counted, for any
recursive call `F` satisfying the sum law. -/
theorem matchFold_sum (F : GtrieNode → List Nat → Finset Nat → MatchState)
    (hF : ∀ c u b, sumFreq (F c u b).1 = sumFreq c + (F c u b).2.2.2) :
    ∀ (cs : List GtrieNode) (acc : List GtrieNode) (u : List Nat)
      (b : Finset Nat) (cnt : Nat),
      sumFreq.sumFreqL ((cs.foldl (childStepF F) (acc, u, b, cnt)).1) + cnt =
      sumFreq.sumFreqL acc + sumFreq.sumFreqL cs +
        (cs.foldl (childStepF F) (acc, u, b, cnt)).2.2.2 := by
  intro cs
  induction cs with
  | nil =>
    intro acc u b cnt
    simp [sumFreq.sumFreqL]
  | cons c cs' ih =>
    intro acc u b cnt
    rw [List.foldl_cons]
    have hr := hF c u b
    have hih := ih (acc ++ [(F c u b).1]) (F c u b).2.1 (F c u b).2.2.1
      (cnt + (F c u b).2.2.2)
    rw [sumFreqL_append] at hih
    rw [sumFreq.sumFreqL]
    rw [show childStepF F (acc, u, b, cnt) c =
      (acc ++ [(F c u b).1], (F c u b).2.1, (F c u b).2.2.1,
        cnt + (F c u b).2.2.2) from rfl]
    omega

/-- Sum law for the fueled matcher: the terminal sum of the returned subtree
exceeds the input subtree's by exactly the number of matches counted. -/
theorem matchChildGo_sum (g : Bitgraph) :
    ∀ (fuel : Nat) (node : GtrieNode) (used : List Nat) (bl : Finset Nat),
      sumFreq (matchChildGo g fuel node used bl).1 =
        sumFreq node + (matchChildGo g fuel node used bl).2.2.2 := by
  intro fuel
  induction fuel with
  | zero => intro node used bl; rfl
  | succ fuel ih =>
    intro node used bl
    rw [matchChildGo]
    refine foldl_delta_zero _ (fun st => sumFreq st.1) (fun st => st.2.2.2)
      ?_ (matchingVerticesConditionally node used g bl) (node, used, bl, 0) rfl
    intro st v
    rw [matchStepF]
    dsimp only
    by_cases hG : st.1.isGraph
    · rw [if_pos hG]
      dsimp only
      rw [sumFreq_incrementFrequency st.1 hG]
      omega
    · rw [if_neg hG]
      dsimp only
      rw [sumFreq_withChildren]
      have hin := matchFold_sum (fun c u b => matchChildGo g fuel c u b)
        (fun c u b => ih c u b)
        st.1.children [] (st.2.1 ++ [v]) (Insert.insert v st.2.2.1)
        st.2.2.2
      rw [show sumFreq.sumFreqL ([] : List GtrieNode) = 0 from rfl] at hin
      rw [sumFreq_eq st.1]
      omega

/-- C2: for every host graph and every trie whose terminal frequencies start
at zero, after a census the sum of `frequency` over all terminal nodes equals
`total_matches` — the counter (modelled from the spec, which increments it in
lockstep with every terminal `frequency` increment) returned by the census. -/
theorem census_total_matches (t : Gtrie) (g : Bitgraph)
    (h : sumFreq t.root = 0) :
    sumFreq (t.census g).1.root = (t.census g).2 := by
  have hF : ∀ c u b, sumFreq (matchChildConditionally g c u b).1 =
      sumFreq c + (matchChildConditionally g c u b).2.2.2 :=
    fun c u b => matchChildGo_sum g c.height c u b
  have hfold := matchFold_sum (matchChildConditionally g) hF
    t.root.children [] [] ∅ 0
  rw [show sumFreq.sumFreqL ([] : List GtrieNode) = 0 from rfl] at hfold
  rw [sumFreq_eq t.root] at h
  rw [Gtrie.census]
  dsimp only
  rw [sumFreq_withChildren]
  omega

/-- C2 (witness): the path trie for the single-edge pattern on the host with
the one edge `0 → 1` starts with all frequencies zero, so the census's
terminal sum equals its total-match count. -/
theorem census_total_matches_witness :
    sumFreq (Gtrie.mk (GtrieNode.mk 0 0 false ∅ ∅ 0 0 0 0 [] none
      [.mk 1 1 false ∅ ∅ 0 0 0 0 [] none
        [.mk 2 2 true ∅ {0} 0 1 1 0 [0] none []]]) 2).root = 0 ∧
    sumFreq ((Gtrie.mk (GtrieNode.mk 0 0 false ∅ ∅ 0 0 0 0 [] none
      [.mk 1 1 false ∅ ∅ 0 0 0 0 [] none
        [.mk 2 2 true ∅ {0} 0 1 1 0 [0] none []]]) 2).census
      ⟨2, [false, true, false, false]⟩).1.root =
    ((Gtrie.mk (GtrieNode.mk 0 0 false ∅ ∅ 0 0 0 0 [] none
      [.mk 1 1 false ∅ ∅ 0 0 0 0 [] none
        [.mk 2 2 true ∅ {0} 0 1 1 0 [0] none []]]) 2).census
      ⟨2, [false, true, false, false]⟩).2 :=
  ⟨by decide,
    census_total_matches (Gtrie.mk (GtrieNode.mk 0 0 false ∅ ∅ 0 0 0 0 [] none
      [.mk 1 1 false ∅ ∅ 0 0 0 0 [] none
        [.mk 2 2 true ∅ {0} 0 1 1 0 [0] none []]]) 2)
      ⟨2, [false, true, false, false]⟩ (by decide)⟩

/-- Every vertex produced by the pop-and-filter loop passed the structural
filter. -/
theorem buildVertices_sound (node : GtrieNode) (used : List Nat)
    (g : Bitgraph) :
    ∀ (c : Candidates) (v : Nat), v ∈ buildVertices node used g c →
      matchesStructure node g used v = true := by
  suffices H : ∀ (k : Nat) (c : Candidates), c.n ≤ k → ∀ v,
      v ∈ buildVertices node used g c →
      matchesStructure node g used v = true by
    exact fun c v hv => H c.n c (Nat.le_refl _) v hv
  intro k
  induction k with
  | zero =>
    intro c hc v hv
    rw [buildVertices, dif_pos (Nat.le_zero.mp hc)] at hv
    cases hv
  | succ k ih =>
    intro c hc v hv
    by_cases h0 : c.n = 0
    · rw [buildVertices, dif_pos h0] at hv
      cases hv
    · rw [buildVertices, dif_neg h0] at hv
      dsimp only at hv
      have hle : (⟨c.candidates, c.blacklist, c.n - 1, c.size⟩ : Candidates).n ≤ k := by
        show c.n - 1 ≤ k
        omega
      split at hv
      · next hm =>
        rcases List.mem_cons.mp hv with rfl | hv'
        · exact hm
        · exact ih _ hle v hv'
      · exact ih _ hle v hv

/-- Every vertex accepted by the matcher's vertex generation avoids the
current prefix. -/
theorem matchingVertices_not_mem (node : GtrieNode) (used : List Nat)
    (g : Bitgraph) (bl : Finset Nat) :
    ∀ v ∈ matchingVerticesConditionally node used g bl, v ∉ used :=
  fun v hv =>
    matchesStructure_not_mem node g used v
      (buildVertices_sound node used g _ v hv)

/-- Appending one element to a list inserts it into the element set. -/
theorem toFinset_append_single (l : List Nat) (v : Nat) :
    (l ++ [v]).toFinset = Insert.insert v l.toFinset := by
  ext w
  simp [or_comm]

/-- Dropping the last element of a one-element extension recovers the
original list (`used.pop()` undoing `used.push(v)`). -/
theorem dropLast_append_single (l : List Nat) (v : Nat) :
    (l ++ [v]).dropLast = l := by
  simp

/-- The child loop leaves `used` and `blacklist` unchanged whenever each
recursive call does. -/
theorem matchFold_frame (F : GtrieNode → List Nat → Finset Nat → MatchState)
    (u0 : List Nat) (b0 : Finset Nat)
    (hF : ∀ c, (F c u0 b0).2.1 = u0 ∧ (F c u0 b0).2.2.1 = b0) :
    ∀ (cs : List GtrieNode) (acc : List GtrieNode) (cnt : Nat),
      (cs.foldl (childStepF F) (acc, u0, b0, cnt)).2.1 = u0 ∧
      (cs.foldl (childStepF F) (acc, u0, b0, cnt)).2.2.1 = b0 := by
  intro cs
  induction cs with
  | nil => intro acc cnt; exact ⟨rfl, rfl⟩
  | cons c cs' ih =>
    intro acc cnt
    rw [List.foldl_cons]
    rw [show childStepF F (acc, u0, b0, cnt) c =
      (acc ++ [(F c u0 b0).1], (F c u0 b0).2.1, (F c u0 b0).2.2.1,
        cnt + (F c u0 b0).2.2.2) from rfl]
    rw [(hF c).1, (hF c).2]
    exact ih _ _

/-- Frame law for the fueled matcher: when the blacklist is exactly the set
of used vertices, the matcher returns `used` and `blacklist` at their entry
values (every push is popped, every blacklist bit set is cleared). -/
theorem matchChildGo_frame (g : Bitgraph) :
    ∀ (fuel : Nat) (node : GtrieNode) (used : List Nat) (bl : Finset Nat),
      bl = used.toFinset →
      (matchChildGo g fuel node used bl).2.1 = used ∧
      (matchChildGo g fuel node used bl).2.2.1 = bl := by
  intro fuel
  induction fuel with
  | zero => intro node used bl _; exact ⟨rfl, rfl⟩
  | succ fuel ih =>
    intro node used bl hcorr
    rw [matchChildGo]
    refine foldl_hold_mem (fun st : MatchState => st.2.1 = used ∧ st.2.2.1 = bl)
      (matchStepF (fun c u b => matchChildGo g fuel c u b))
      (matchingVerticesConditionally node used g bl) ?_ (node, used, bl, 0)
      ⟨rfl, rfl⟩
    intro st v hv hP
    have hvnot : v ∉ used := matchingVertices_not_mem node used g bl v hv
    have hvbl : v ∉ bl := by
      rw [hcorr, List.mem_toFinset]
      exact hvnot
    rw [matchStepF]
    dsimp only
    rw [hP.1, hP.2]
    by_cases hG : st.1.isGraph
    · rw [if_pos hG]
      constructor
      · show (used ++ [v]).dropLast = used
        exact dropLast_append_single used v
      · show (Insert.insert v bl).erase v = bl
        exact Finset.erase_insert hvbl
    · rw [if_neg hG]
      have hcorr2 : Insert.insert v bl = (used ++ [v]).toFinset := by
        rw [toFinset_append_single, hcorr]
      have hin := matchFold_frame (fun c u b => matchChildGo g fuel c u b)
        (used ++ [v]) (Insert.insert v bl)
        (fun c => ih c (used ++ [v]) (Insert.insert v bl) hcorr2)
        st.1.children [] st.2.2.2
      constructor
      · show ((st.1.children.foldl
          (childStepF (fun c u b => matchChildGo g fuel c u b))
          ([], used ++ [v], Insert.insert v bl, st.2.2.2)).2.1).dropLast = used
        rw [hin.1]
        exact dropLast_append_single used v
      · show ((st.1.children.foldl
          (childStepF (fun c u b => matchChildGo g fuel c u b))
          ([], used ++ [v], Insert.insert v bl, st.2.2.2)).2.2.1).erase v = bl
        rw [hin.2]
        exact Finset.erase_insert hvbl

/-- C10: when the blacklist bits are exactly the members of `used`,
`match_child_conditionally` returns with `used` and `blacklist` at their
entry values, and the states handed to the recursive calls (prefix extended
by an accepted vertex `v`, blacklist with `v`'s bit set) satisfy the same
correspondence — the accepted vertex is never already in `used`. -/
theorem match_child_conditionally_frame (g : Bitgraph) (node : GtrieNode)
    (used : List Nat) (bl : Finset Nat) (h : bl = used.toFinset) :
    (matchChildConditionally g node used bl).2.1 = used ∧
    (matchChildConditionally g node used bl).2.2.1 = bl ∧
    (∀ v ∈ matchingVerticesConditionally node used g bl,
      Insert.insert v bl = (used ++ [v]).toFinset ∧ v ∉ used) := by
  refine ⟨(matchChildGo_frame g node.height node used bl h).1,
    (matchChildGo_frame g node.height node used bl h).2, ?_⟩
  intro v hv
  exact ⟨by rw [toFinset_append_single, h],
    matchingVertices_not_mem node used g bl v hv⟩

/-- C10 (witness): on the one-edge host with a depth-1 terminal node and an
empty assignment (whose blacklist is its vertex set), the matcher restores
the empty assignment and blacklist. -/
theorem match_child_conditionally_frame_witness :
    (matchChildConditionally ⟨2, [false, true, false, false]⟩
      (.mk 1 1 true ∅ ∅ 0 0 0 0 [] none []) [] ∅).2.1 = [] ∧
    (matchChildConditionally ⟨2, [false, true, false, false]⟩
      (.mk 1 1 true ∅ ∅ 0 0 0 0 [] none []) [] ∅).2.2.1 = ∅ :=
  ⟨(match_child_conditionally_frame ⟨2, [false, true, false, false]⟩
      (.mk 1 1 true ∅ ∅ 0 0 0 0 [] none []) [] ∅ (by simp)).1,
   (match_child_conditionally_frame ⟨2, [false, true, false, false]⟩
      (.mk 1 1 true ∅ ∅ 0 0 0 0 [] none []) [] ∅ (by simp)).2.1⟩

end Graphtries
